import Mathlib

/-!
Verification development for the TensorNetwork excerpt.

Two source artefacts are covered:

* `tensornetwork/tn_keras/condenser.py` — the `DenseCondenser` Keras layer.
  Its shape behaviour (`build`, `call`, `compute_output_shape`) is embedded
  below with exact integer arithmetic standing for Python's
  `round(input_dim ** (1. / (num_nodes + 1)))`.

* `tensornetwork/block_tensor/tutorial.py` — a tutorial exercising a
  block-sparse symmetric tensor API (`BT.BlockSparseTensor`, `IDX.Index`,
  `BT.reshape`).  The implementation of that API is not part of the excerpt,
  so it is modelled from the spec (sections 2-4, 7, 8): indices with charges
  and flows, fusion by flow-weighted outer sums, storage of only the
  charge-conserving elements, and reshape as a regrouping of elementary legs
  that recomputes the `Index` metadata without touching the data buffer.
-/

set_option autoImplicit false

namespace TNVerify

/-- Modelled from the spec: `IDX.Index` (missing `tensornetwork/block_tensor/index.py`).
An `Index` describes one tensor leg: an elementary index holds an ordered
sequence of integer charges and a flow sign; a fused index records the two
legs it merges, so that a previously-seen grouping can be restored exactly by
a later reshape. -/
inductive Index where
  | elementary (charges : List Int) (flow : Int)
  | fused (left right : Index)
deriving DecidableEq

/-- Dense dimension of a leg. -/
def Index.dim : Index → Nat
  | .elementary cs _ => cs.length
  | .fused l r => l.dim * r.dim

/-- Flow sign of a leg.  A fused leg carries flow `1` because its charge
sequence is already flow-weighted. -/
def Index.flow : Index → Int
  | .elementary _ f => f
  | .fused _ _ => 1

/-- Charge sequence of a leg.  For a fused leg this is the outer sum of the
flow-weighted constituent charges, in row-major order (spec 4.1). -/
def Index.charges : Index → List Int
  | .elementary cs _ => cs
  | .fused l r =>
      (l.charges.map (fun c1 => r.charges.map (fun c2 => l.flow * c1 + r.flow * c2))).flatten

/-- Flow-weighted charge selecting position `n` on this leg. -/
def Index.chargeAt (i : Index) (n : Nat) : Int :=
  i.flow * i.charges.getD n 0

/-- The elementary (unfused) legs making up a leg, in order. -/
def Index.elems : Index → List Index
  | .elementary cs f => [.elementary cs f]
  | .fused l r => l.elems ++ r.elems

/-- Recursive deep copy of a leg descriptor (models `copy.deepcopy`). -/
def Index.deepCopy : Index → Index
  | .elementary cs f => .elementary (cs.map (fun c => c)) f
  | .fused l r => .fused l.deepCopy r.deepCopy

/-- The elementary legs of a sparse shape, in order. -/
def elemsList : List Index → List Index
  | [] => []
  | i :: rest => i.elems ++ elemsList rest

/-- Dense per-leg dimensions of a sparse shape. -/
def denseDims (shape : List Index) : List Nat :=
  shape.map Index.dim

/-- Product of a list of dimensions (total dense element count). -/
def listProd : List Nat → Nat
  | [] => 1
  | d :: ds => d * listProd ds

/-- All multi-indices of a dense shape, in row-major order. -/
def positions : List Nat → List (List Nat)
  | [] => [[]]
  | d :: ds => ((List.range d).map (fun n => (positions ds).map (fun p => n :: p))).flatten

/-- Flow-weighted sum of the charges selecting a given multi-index across the
legs of a sparse shape. -/
def chargeSum : List Index → List Nat → Int
  | i :: rest, n :: ns => i.chargeAt n + chargeSum rest ns
  | _, _ => 0

/-- Modelled from the spec: the positions whose flow-weighted charge sum
equals the total charge `q`; only these elements are stored (spec section 3).
They are enumerated in row-major order. -/
def storedPositions (shape : List Index) (q : Int) : List (List Nat) :=
  (positions (denseDims shape)).filter (fun p => chargeSum shape p == q)

/-- Modelled from the spec: `BT.BlockSparseTensor` (missing
`tensornetwork/block_tensor/block_tensor.py`).  A tensor holds one `Index`
per leg, a dense buffer of only the stored (charge-conserving) elements, and
its fixed total charge. -/
structure BlockSparseTensor (α : Type) where
  indices : List Index
  data : List α
  charge : Int
deriving DecidableEq

variable {α : Type}

/-- Modelled from the spec: `BlockSparseTensor.randn`.  Allocates storage
only for the elements satisfying the zero-charge constraint and fills them
from the pseudo-random stream `rand`. -/
def BlockSparseTensor.randn (inds : List Index) (rand : Nat → α) : BlockSparseTensor α :=
  ⟨inds, (List.range (storedPositions inds 0).length).map rand, 0⟩

/-- The dense per-leg sizes of the tensor (the `shape` property). -/
def BlockSparseTensor.shape (A : BlockSparseTensor α) : List Nat :=
  denseDims A.indices

/-- Modelled from the spec: the `sparse_shape` property returns a deep copy
of the tensor's `indices`. -/
def BlockSparseTensor.sparseShape (A : BlockSparseTensor α) : List Index :=
  A.indices.map Index.deepCopy

/-- Modelled from the spec: the error raised by an invalid reshape. -/
inductive ShapeError where
  | shapeError
deriving DecidableEq

/-- A reshape request: either a flat list of dense per-leg sizes or a list of
(possibly composite) `Index` objects. -/
inductive ReshapeArg where
  | dense (dims : List Nat)
  | sparse (shape : List Index)
deriving DecidableEq

/-- Left-biased choice between two optional groupings (used to let the
grouping search consider closing the current group before extending it). -/
def orO {β : Type} : Option β → Option β → Option β
  | some x, _ => some x
  | none, y => y

/-- A consecutive regrouping of the legs `es` realises the dense dims `ds`:
`es` splits, in order, into consecutive nonempty groups whose dimension
products are exactly the requested dims. -/
def realisable : List Index → List Nat → Prop
  | es, [] => es = []
  | es, s :: ss =>
      ∃ g rest, g ≠ [] ∧ es = g ++ rest ∧ listProd (denseDims g) = s ∧ realisable rest ss

/-- Fuse consecutive elementary legs to realise the target dims: `acc` is the
group being built for target `s`, `ss` the remaining targets.  At each leg
the search either closes the current group (when its dim matches the target)
or keeps fusing the leg into it, so every consecutive regrouping — including
those absorbing trailing dimension-1 legs — is found. -/
def groupGo : List Index → Index → Nat → List Nat → Option (List Index)
  | [], acc, s, ss => if acc.dim = s ∧ ss = [] then some [acc] else none
  | e :: es, acc, s, ss =>
      orO
        (if acc.dim = s then
          match ss with
          | [] => none
          | s2 :: ss2 => (groupGo es e s2 ss2).map (fun gs => acc :: gs)
        else none)
        (groupGo es (Index.fused acc e) s ss)

/-- Group a list of elementary legs into consecutive fusions realising the
requested dense dims; `none` when no such regrouping exists. -/
def groupElems : List Index → List Nat → Option (List Index)
  | [], [] => some []
  | e :: es, s :: ss => groupGo es e s ss
  | _, _ => none

/-- Modelled from the spec: reshape to a flat dense shape.  The elementary
legs are regrouped into consecutive fusions matching the requested dims; the
`Index` metadata is recomputed and the data buffer is untouched.  Raises
`ShapeError` when no such regrouping exists (in particular whenever the
requested element count differs from the tensor's). -/
def BlockSparseTensor.reshapeDense (A : BlockSparseTensor α) (dims : List Nat) :
    Except ShapeError (BlockSparseTensor α) :=
  match groupElems (elemsList A.indices) dims with
  | some newInds => .ok { A with indices := newInds }
  | none => .error .shapeError

/-- Modelled from the spec: reshape to a list of (possibly composite)
`Index` objects.  Succeeds exactly when the requested indices carry the same
elementary charge structure as the tensor's current legs. -/
def BlockSparseTensor.reshapeSparse (A : BlockSparseTensor α) (shape : List Index) :
    Except ShapeError (BlockSparseTensor α) :=
  if elemsList shape = elemsList A.indices then .ok { A with indices := shape }
  else .error .shapeError

/-- The reshape transition function shared by the in-place method and the
free function. -/
def BlockSparseTensor.reshape (A : BlockSparseTensor α) :
    ReshapeArg → Except ShapeError (BlockSparseTensor α)
  | .dense ds => A.reshapeDense ds
  | .sparse shape => A.reshapeSparse shape

/-- Field-by-field copy of a tensor (the free function's defensive copy). -/
def tensorCopy (A : BlockSparseTensor α) : BlockSparseTensor α :=
  ⟨A.indices.map Index.deepCopy, A.data.map (fun x => x), A.charge⟩

/-- Modelled from the spec: the free function `BT.reshape` copies its input
and reshapes the copy.  The pair returned is (result, state of `A` after the
call), making the frame condition explicit. -/
def reshapeFree (A : BlockSparseTensor α) (arg : ReshapeArg) :
    Except ShapeError (BlockSparseTensor α) × BlockSparseTensor α :=
  ((tensorCopy A).reshape arg, A)

/-- Modelled from the spec: the in-place method `A.reshape`.  The pair is
(state of `A` after the call, error if any); validation happens before any
mutation, so a failing call leaves the prior state. -/
def reshapeInPlace (A : BlockSparseTensor α) (arg : ReshapeArg) :
    BlockSparseTensor α × Option ShapeError :=
  match A.reshape arg with
  | .ok B => (B, none)
  | .error e => (A, some e)

/-- Apply a finite sequence of reshape requests in order. -/
def applyReshapes (A : BlockSparseTensor α) : List ReshapeArg → Except ShapeError (BlockSparseTensor α)
  | [] => .ok A
  | r :: rs => (A.reshape r).bind (fun B => applyReshapes B rs)

/-- The tutorial's mutation scenario: obtain `sparse_shape`, overwrite one of
its entries, and observe the tensor afterwards.  The pair is (the mutated
returned list, the state of `A` after the mutation). -/
def setSparseShapeEntry (A : BlockSparseTensor α) (i : Nat) (J : Index) :
    List Index × BlockSparseTensor α :=
  ((A.sparseShape).set i J, A)

end TNVerify

namespace Condenser

/-- Largest `j ≤ k` with `j ^ m ≤ d`. -/
def irootAux (d m : Nat) : Nat → Nat
  | 0 => 0
  | k + 1 => if (k + 1) ^ m ≤ d then k + 1 else irootAux d m k

/-- Integer part of the `m`-th root of `d`. -/
def iroot (d m : Nat) : Nat :=
  irootAux d m d

/-- `round(d ** (1. / m))` in exact arithmetic: the floor root, bumped by one
when the real root's fractional part is at least one half, i.e. when
`2^m * d ≥ (2*k+1)^m`.  This is the `leg_dim` computed by
`DenseCondenser.build` with `m = num_nodes + 1`. -/
def legDim (d m : Nat) : Nat :=
  if 2 ^ m * d < (2 * iroot d m + 1) ^ m then iroot d m else iroot d m + 1

/-- `self.output_dim` as set by `DenseCondenser.build`. -/
def outputDim (d numNodes : Nat) : Nat :=
  legDim d (numNodes + 1)

/-- `DenseCondenser.compute_output_shape`. -/
def computeOutputShape (batch d numNodes : Nat) : Nat × Nat :=
  (batch, outputDim d numNodes)

/-- Shape semantics of `DenseCondenser.call` on a 2D input `(batch, d)`:
the input vector is reshaped to `num_nodes + 1` legs of size `leg_dim`
(defined only when `d = leg_dim ^ (num_nodes + 1)`), each contraction removes
one leg, and the result is reshaped to `(batch, output_dim)`. -/
def callShape (batch d numNodes : Nat) : Option (Nat × Nat) :=
  if d = legDim d (numNodes + 1) ^ (numNodes + 1) then
    some (batch, outputDim d numNodes)
  else none

/-- Kinds of weights created by `build`. -/
inductive WeightKind where
  | kernel
  | bias
deriving DecidableEq

/-- A weight created by `add_weight`: its kind and its shape. -/
structure Weight where
  kind : WeightKind
  wshape : List Nat
deriving DecidableEq

/-- Errors raised by `build`. -/
inductive LayerError where
  | valueError
  | indexError
deriving DecidableEq

/-- `DenseCondenser.build`: rejects an undefined last input dimension with a
`ValueError` before creating any weight; otherwise creates `num_nodes`
kernels of shape `(leg_dim, leg_dim, leg_dim)` and, when `use_bias`, a bias
of shape `(output_dim,)`.  An empty `input_shape` models Python's
`input_shape[-1]` failure. -/
def build (numNodes : Nat) (useBias : Bool) (inputShape : List (Option Nat)) :
    Except LayerError (List Weight) :=
  match inputShape.getLast? with
  | none => .error .indexError
  | some none => .error .valueError
  | some (some d) =>
      let leg := legDim d (numNodes + 1)
      .ok ((List.range numNodes).map (fun _ => Weight.mk .kernel [leg, leg, leg]) ++
        (if useBias then [Weight.mk .bias [leg]] else []))

end Condenser

namespace TNVerify

instance {ε β : Type} [DecidableEq ε] [DecidableEq β] : DecidableEq (Except ε β)
  | .ok a, .ok b =>
      if h : a = b then .isTrue (by rw [h]) else .isFalse (by intro hc; cases hc; exact h rfl)
  | .error a, .error b =>
      if h : a = b then .isTrue (by rw [h]) else .isFalse (by intro hc; cases hc; exact h rfl)
  | .ok _, .error _ => .isFalse (by intro hc; cases hc)
  | .error _, .ok _ => .isFalse (by intro hc; cases hc)

/-- First concrete leg of the running example: charges `[0, 1]`, flow `1`. -/
def e1 : Index := .elementary [0, 1] 1

/-- Second concrete leg of the running example: charges `[0, 1, 2]`, flow `-1`. -/
def e2 : Index := .elementary [0, 1, 2] (-1)

/-- A concrete block-sparse tensor over the two legs, as built by `randn`. -/
def A1 : BlockSparseTensor Int := BlockSparseTensor.randn [e1, e2] (fun n => (n : Int) + 1)

/-- The composite grouping merging the two legs of `A1` into one. -/
def G1 : List Index := [.fused e1 e2]

end TNVerify

namespace TNVerify

variable {α : Type}

theorem Index.charges_length (i : Index) : i.charges.length = i.dim := by
  induction i with
  | elementary cs f => rfl
  | fused l r ihl ihr =>
    simp only [Index.charges, Index.dim, List.length_flatten, List.map_map]
    have hcomp : (List.length ∘ fun c1 =>
        List.map (fun c2 => l.flow * c1 + r.flow * c2) r.charges) =
          fun _ => r.charges.length := by
      funext c1
      simp
    rw [hcomp, List.map_const', List.sum_replicate, smul_eq_mul, ihl, ihr]

theorem Index.deepCopy_eq (i : Index) : i.deepCopy = i := by
  induction i with
  | elementary cs f =>
    show Index.elementary (cs.map (fun c => c)) f = Index.elementary cs f
    rw [List.map_id']
  | fused l r ihl ihr =>
    show Index.fused l.deepCopy r.deepCopy = Index.fused l r
    rw [ihl, ihr]

theorem map_deepCopy (l : List Index) : l.map Index.deepCopy = l := by
  induction l with
  | nil => rfl
  | cons i rest ih => simp [Index.deepCopy_eq, ih]

theorem sparseShape_eq (A : BlockSparseTensor α) : A.sparseShape = A.indices := by
  unfold BlockSparseTensor.sparseShape
  rw [map_deepCopy]

theorem tensorCopy_eq (A : BlockSparseTensor α) : tensorCopy A = A := by
  unfold tensorCopy
  rw [map_deepCopy, List.map_id']

theorem listProd_append (xs ys : List Nat) : listProd (xs ++ ys) = listProd xs * listProd ys := by
  induction xs with
  | nil => simp [listProd]
  | cons x xs ih => simp [listProd, ih, Nat.mul_assoc]

theorem elems_dim_prod (i : Index) : listProd (denseDims i.elems) = i.dim := by
  induction i with
  | elementary cs f => simp [Index.elems, denseDims, listProd, Index.dim]
  | fused l r ihl ihr =>
    show listProd (denseDims (l.elems ++ r.elems)) = (Index.fused l r).dim
    simp only [denseDims, List.map_append] at ihl ihr ⊢
    rw [listProd_append, ihl, ihr]
    rfl

theorem elemsList_prod (l : List Index) :
    listProd (denseDims (elemsList l)) = listProd (denseDims l) := by
  induction l with
  | nil => rfl
  | cons i rest ih =>
    show listProd (denseDims (i.elems ++ elemsList rest)) = listProd (denseDims (i :: rest))
    have hi := elems_dim_prod i
    simp only [denseDims, List.map_append, List.map_cons] at hi ih ⊢
    rw [listProd_append, hi, ih]
    rfl

theorem groupGo_prod :
    ∀ (es : List Index) (acc : Index) (s : Nat) (ss : List Nat) (gs : List Index),
      groupGo es acc s ss = some gs → acc.dim * listProd (denseDims es) = s * listProd ss := by
  intro es
  induction es with
  | nil =>
    intro acc s ss gs h
    unfold groupGo at h
    split at h
    · next hc =>
      obtain ⟨h1, h2⟩ := hc
      subst h1; subst h2
      simp [denseDims, listProd]
    · cases h
  | cons e es ih =>
    intro acc s ss gs h
    have h' : orO
        (if acc.dim = s then
          match ss with
          | [] => none
          | s2 :: ss2 => (groupGo es e s2 ss2).map (fun gs => acc :: gs)
        else none)
        (groupGo es (Index.fused acc e) s ss) = some gs := h
    by_cases hacc : acc.dim = s
    · rw [if_pos hacc] at h'
      cases ss with
      | nil =>
        have h2 := ih (Index.fused acc e) s [] gs h'
        simp only [Index.dim, denseDims, List.map_cons, listProd] at h2 ⊢
        rw [← Nat.mul_assoc]
        exact h2
      | cons s2 ss2 =>
        cases hg : groupGo es e s2 ss2 with
        | some gs2 =>
          have h2 := ih e s2 ss2 gs2 hg
          simp only [denseDims, List.map_cons, listProd] at h2 ⊢
          rw [hacc, h2]
        | none =>
          have h4 : orO (Option.map (fun gs => acc :: gs) (groupGo es e s2 ss2))
              (groupGo es (Index.fused acc e) s (s2 :: ss2)) = some gs := h'
          rw [hg] at h4
          have h3 : groupGo es (Index.fused acc e) s (s2 :: ss2) = some gs := h4
          have h2 := ih (Index.fused acc e) s (s2 :: ss2) gs h3
          simp only [Index.dim, denseDims, List.map_cons, listProd] at h2 ⊢
          rw [← Nat.mul_assoc]
          exact h2
    · rw [if_neg hacc] at h'
      have h2 := ih (Index.fused acc e) s ss gs h'
      simp only [Index.dim, denseDims, List.map_cons, listProd] at h2 ⊢
      rw [← Nat.mul_assoc]
      exact h2

theorem groupElems_prod {es : List Index} {ds : List Nat} {gs : List Index}
    (h : groupElems es ds = some gs) : listProd ds = listProd (denseDims es) := by
  cases es with
  | nil =>
    cases ds with
    | nil => rfl
    | cons d ds2 => cases h
  | cons e es2 =>
    cases ds with
    | nil => cases h
    | cons s ss =>
      have h2 := groupGo_prod es2 e s ss gs h
      simp only [denseDims, List.map_cons, listProd] at h2 ⊢
      exact h2.symm

theorem orO_some_iff {β : Type} (a b : Option β) :
    (∃ x, orO a b = some x) ↔ (∃ x, a = some x) ∨ (∃ x, b = some x) := by
  cases a with
  | some x => simp [orO]
  | none => simp [orO]

theorem realisable_nil_left : ∀ ss : List Nat, realisable [] ss → ss = [] := by
  intro ss h
  cases ss with
  | nil => rfl
  | cons s ss2 =>
    have h' : ∃ g rest, g ≠ [] ∧ ([] : List Index) = g ++ rest ∧
        listProd (denseDims g) = s ∧ realisable rest ss2 := h
    obtain ⟨g, rest, hne, heq, _, _⟩ := h'
    exact absurd (List.append_eq_nil.mp heq.symm).1 hne

theorem groupGo_some_iff :
    ∀ (es : List Index) (acc : Index) (s : Nat) (ss : List Nat),
      (∃ gs, groupGo es acc s ss = some gs) ↔
        ∃ g rest, es = g ++ rest ∧ acc.dim * listProd (denseDims g) = s ∧
          realisable rest ss := by
  intro es
  induction es with
  | nil =>
    intro acc s ss
    constructor
    · rintro ⟨gs, h⟩
      unfold groupGo at h
      split at h
      · next hc =>
        refine ⟨[], [], rfl, ?_, ?_⟩
        · simpa [denseDims, listProd] using hc.1
        · rw [hc.2]
          exact rfl
      · cases h
    · rintro ⟨g, rest, heq, hprod, hreal⟩
      obtain ⟨hg, hrest⟩ := List.append_eq_nil.mp heq.symm
      subst hg
      subst hrest
      have hss : ss = [] := realisable_nil_left ss hreal
      subst hss
      have hacc : acc.dim = s := by simpa [denseDims, listProd] using hprod
      exact ⟨[acc], by unfold groupGo; rw [if_pos ⟨hacc, rfl⟩]⟩
  | cons e es ih =>
    intro acc s ss
    constructor
    · rintro ⟨gs, h⟩
      have h' : orO
          (if acc.dim = s then
            match ss with
            | [] => none
            | s2 :: ss2 => (groupGo es e s2 ss2).map (fun gs => acc :: gs)
          else none)
          (groupGo es (Index.fused acc e) s ss) = some gs := h
      rcases (orO_some_iff _ _).mp ⟨gs, h'⟩ with ⟨gs1, h1⟩ | ⟨gs2, h2⟩
      · by_cases hacc : acc.dim = s
        · rw [if_pos hacc] at h1
          cases ss with
          | nil =>
            have h1' : (none : Option (List Index)) = some gs1 := h1
            cases h1'
          | cons s2 ss2 =>
            have h1' : Option.map (fun gs => acc :: gs) (groupGo es e s2 ss2)
                = some gs1 := h1
            cases hg : groupGo es e s2 ss2 with
            | none => rw [hg] at h1'; cases h1'
            | some gs3 =>
              obtain ⟨g2, rest2, heq2, hprod2, hreal2⟩ := (ih e s2 ss2).mp ⟨gs3, hg⟩
              refine ⟨[], e :: es, rfl, ?_, ?_⟩
              · simpa [denseDims, listProd] using hacc
              · show ∃ g rest, g ≠ [] ∧ (e :: es : List Index) = g ++ rest ∧
                    listProd (denseDims g) = s2 ∧ realisable rest ss2
                refine ⟨e :: g2, rest2, by simp, by simp [heq2], ?_, hreal2⟩
                simpa [denseDims, listProd] using hprod2
        · rw [if_neg hacc] at h1
          cases h1
      · obtain ⟨g2, rest2, heq2, hprod2, hreal2⟩ :=
          (ih (Index.fused acc e) s ss).mp ⟨gs2, h2⟩
        refine ⟨e :: g2, rest2, by simp [heq2], ?_, hreal2⟩
        have hp : (Index.fused acc e).dim * listProd (denseDims g2) = s := hprod2
        simp only [Index.dim, denseDims] at hp
        simp only [denseDims, List.map_cons, listProd]
        rw [← Nat.mul_assoc]
        exact hp
    · rintro ⟨g, rest, heq, hprod, hreal⟩
      cases g with
      | nil =>
        simp only [List.nil_append] at heq
        subst heq
        have hacc : acc.dim = s := by simpa [denseDims, listProd] using hprod
        cases ss with
        | nil =>
          have h0 : (e :: es : List Index) = [] := hreal
          cases h0
        | cons s2 ss2 =>
          have hreal' : ∃ g2 rest2, g2 ≠ [] ∧ (e :: es : List Index) = g2 ++ rest2 ∧
              listProd (denseDims g2) = s2 ∧ realisable rest2 ss2 := hreal
          obtain ⟨g2, rest2, hne2, heq2, hprod2, hreal2⟩ := hreal'
          cases g2 with
          | nil => exact absurd rfl hne2
          | cons a g2' =>
            have heq3 : e :: es = a :: (g2' ++ rest2) := heq2
            injection heq3 with hae hes
            subst hae
            have hp2 : e.dim * listProd (denseDims g2') = s2 := by
              simpa [denseDims, listProd] using hprod2
            obtain ⟨gs3, hg3⟩ := (ih e s2 ss2).mpr ⟨g2', rest2, hes, hp2, hreal2⟩
            refine ⟨acc :: gs3, ?_⟩
            show orO
                (if acc.dim = s then
                  match s2 :: ss2 with
                  | [] => none
                  | s3 :: ss3 => (groupGo es e s3 ss3).map (fun gs => acc :: gs)
                else none)
                (groupGo es (Index.fused acc e) s (s2 :: ss2)) = some (acc :: gs3)
            rw [if_pos hacc]
            show orO ((groupGo es e s2 ss2).map (fun gs => acc :: gs))
                (groupGo es (Index.fused acc e) s (s2 :: ss2)) = some (acc :: gs3)
            rw [hg3]
            rfl
      | cons a g' =>
        have heq3 : e :: es = a :: (g' ++ rest) := heq
        injection heq3 with hae hes
        subst hae
        have hp : (Index.fused acc e).dim * listProd (denseDims g') = s := by
          simp only [Index.dim, denseDims]
          have hx := hprod
          simp only [denseDims, List.map_cons, listProd] at hx
          rw [Nat.mul_assoc]
          exact hx
        obtain ⟨gs2, hg2⟩ := (ih (Index.fused acc e) s ss).mpr ⟨g', rest, hes, hp, hreal⟩
        cases hcl : (if acc.dim = s then
            match ss with
            | [] => none
            | s2 :: ss2 => (groupGo es e s2 ss2).map (fun gs => acc :: gs)
          else none) with
        | some gs1 =>
          refine ⟨gs1, ?_⟩
          show orO (if acc.dim = s then
              match ss with
              | [] => none
              | s2 :: ss2 => (groupGo es e s2 ss2).map (fun gs => acc :: gs)
            else none) (groupGo es (Index.fused acc e) s ss) = some gs1
          rw [hcl]
          rfl
        | none =>
          refine ⟨gs2, ?_⟩
          show orO (if acc.dim = s then
              match ss with
              | [] => none
              | s2 :: ss2 => (groupGo es e s2 ss2).map (fun gs => acc :: gs)
            else none) (groupGo es (Index.fused acc e) s ss) = some gs2
          rw [hcl, hg2]
          rfl

theorem groupElems_some_iff (es : List Index) (ds : List Nat) :
    (∃ gs, groupElems es ds = some gs) ↔ realisable es ds := by
  cases es with
  | nil =>
    cases ds with
    | nil =>
      constructor
      · intro _
        exact rfl
      · intro _
        exact ⟨[], rfl⟩
    | cons s ss =>
      constructor
      · rintro ⟨gs, h⟩
        have h' : (none : Option (List Index)) = some gs := h
        cases h'
      · intro h
        have h' : ∃ g rest, g ≠ [] ∧ ([] : List Index) = g ++ rest ∧
            listProd (denseDims g) = s ∧ realisable rest ss := h
        obtain ⟨g, rest, hne, heq, _, _⟩ := h'
        exact absurd (List.append_eq_nil.mp heq.symm).1 hne
  | cons e es2 =>
    cases ds with
    | nil =>
      constructor
      · rintro ⟨gs, h⟩
        have h' : (none : Option (List Index)) = some gs := h
        cases h'
      · intro h
        have h' : (e :: es2 : List Index) = [] := h
        cases h'
    | cons s ss =>
      have hbridge : (∃ gs, groupElems (e :: es2) (s :: ss) = some gs) ↔
          (∃ gs, groupGo es2 e s ss = some gs) := Iff.rfl
      rw [hbridge, groupGo_some_iff es2 e s ss]
      constructor
      · rintro ⟨g, rest, heq, hprod, hreal⟩
        show ∃ g2 rest2, g2 ≠ [] ∧ (e :: es2 : List Index) = g2 ++ rest2 ∧
            listProd (denseDims g2) = s ∧ realisable rest2 ss
        refine ⟨e :: g, rest, by simp, by simp [heq], ?_, hreal⟩
        simpa [denseDims, listProd] using hprod
      · intro h
        have h' : ∃ g2 rest2, g2 ≠ [] ∧ (e :: es2 : List Index) = g2 ++ rest2 ∧
            listProd (denseDims g2) = s ∧ realisable rest2 ss := h
        obtain ⟨g2, rest2, hne, heq, hprod, hreal⟩ := h'
        cases g2 with
        | nil => exact absurd rfl hne
        | cons a g2' =>
          have heq3 : e :: es2 = a :: (g2' ++ rest2) := heq
          injection heq3 with hae hes
          subst hae
          refine ⟨g2', rest2, hes, ?_, hreal⟩
          simpa [denseDims, listProd] using hprod

theorem reshape_ok_fields {A B : BlockSparseTensor α} {arg : ReshapeArg}
    (h : A.reshape arg = .ok B) : B.data = A.data ∧ B.charge = A.charge := by
  cases arg with
  | dense ds =>
    have h' : (match groupElems (elemsList A.indices) ds with
        | some newInds => Except.ok { A with indices := newInds }
        | none => Except.error ShapeError.shapeError) = Except.ok B := h
    cases hg : groupElems (elemsList A.indices) ds with
    | some gs =>
      rw [hg] at h'
      injection h' with h2
      subst h2
      exact ⟨rfl, rfl⟩
    | none =>
      rw [hg] at h'
      cases h'
  | sparse sh =>
    have h' : (if elemsList sh = elemsList A.indices then
        Except.ok { A with indices := sh }
        else Except.error ShapeError.shapeError) = Except.ok B := h
    by_cases hc : elemsList sh = elemsList A.indices
    · rw [if_pos hc] at h'
      injection h' with h2
      subst h2
      exact ⟨rfl, rfl⟩
    · rw [if_neg hc] at h'
      cases h'

theorem applyReshapes_charge :
    ∀ (ops : List ReshapeArg) (A B : BlockSparseTensor α),
      applyReshapes A ops = .ok B → B.charge = A.charge := by
  intro ops
  induction ops with
  | nil =>
    intro A B h
    cases h
    rfl
  | cons r rs ih =>
    intro A B h
    unfold applyReshapes at h
    cases hr : A.reshape r with
    | error e => rw [hr] at h; cases h
    | ok C =>
      rw [hr] at h
      exact (ih C B h).trans (reshape_ok_fields hr).2

end TNVerify

namespace Condenser

theorem irootAux_pow_le (d m : Nat) (hm : 1 ≤ m) : ∀ k, irootAux d m k ^ m ≤ d := by
  intro k
  induction k with
  | zero =>
    show (0 : Nat) ^ m ≤ d
    rw [Nat.zero_pow (by omega)]
    exact Nat.zero_le d
  | succ k ih =>
    unfold irootAux
    split
    · next h => exact h
    · exact ih

theorem legDim_le (d m : Nat) : legDim d m ≤ iroot d m + 1 := by
  unfold legDim
  split
  · omega
  · omega

theorem iroot_two {m : Nat} (hm : 2 ≤ m) : iroot 2 m = 1 := by
  have h4 : (2 : Nat) ^ 2 ≤ 2 ^ m := Nat.pow_le_pow_right (by norm_num) hm
  have h2 : ¬ ((2 : Nat) ^ m ≤ 2) := by
    have : (2 : Nat) ^ 2 = 4 := by norm_num
    omega
  show irootAux 2 m 2 = 1
  have e2 : irootAux 2 m 2 = if 2 ^ m ≤ 2 then 2 else irootAux 2 m 1 := rfl
  have e1 : irootAux 2 m 1 = if 1 ^ m ≤ 2 then 1 else irootAux 2 m 0 := rfl
  rw [e2, if_neg h2, e1, if_pos (by rw [Nat.one_pow]; omega)]

theorem two_pow_lt_three_pow {m : Nat} (hm : 2 ≤ m) : 2 ^ (m + 1) < 3 ^ m := by
  induction m, hm using Nat.le_induction with
  | base => norm_num
  | succ n hn ih =>
    have h1 : (3 : Nat) ^ (n + 1) = 3 * 3 ^ n := by ring
    have h2 : (2 : Nat) ^ (n + 1 + 1) = 2 * 2 ^ (n + 1) := by ring
    omega

theorem legDim_two {m : Nat} (hm : 2 ≤ m) : legDim 2 m = 1 := by
  unfold legDim
  rw [iroot_two hm]
  have h3 : (2 * 1 + 1 : Nat) = 3 := by norm_num
  rw [h3]
  have hlt : 2 ^ m * 2 < 3 ^ m := by
    have he : (2 : Nat) ^ (m + 1) = 2 ^ m * 2 := by ring
    have h := two_pow_lt_three_pow hm
    omega
  rw [if_pos hlt]

theorem legDim_lt_self {d m : Nat} (hd : 2 ≤ d) (hm : 2 ≤ m) : legDim d m < d := by
  rcases Nat.lt_or_ge d 3 with h3 | h3
  · have hd2 : d = 2 := by omega
    subst hd2
    rw [legDim_two hm]
    norm_num
  · have hle : legDim d m ≤ iroot d m + 1 := legDim_le d m
    rcases Nat.eq_zero_or_pos (iroot d m) with hk0 | hkpos
    · omega
    · have hkm : iroot d m ^ m ≤ d := irootAux_pow_le d m (by omega) d
      have hk2 : iroot d m ^ 2 ≤ iroot d m ^ m := Nat.pow_le_pow_right hkpos hm
      have hksq : iroot d m * iroot d m ≤ d := by
        have hp : iroot d m ^ 2 = iroot d m * iroot d m := by ring
        omega
      by_contra hcon
      push_neg at hcon
      have h1 : d - 1 ≤ iroot d m := by omega
      have h2 : (d - 1) * (d - 1) ≤ iroot d m * iroot d m := Nat.mul_le_mul h1 h1
      have he2 : 2 ≤ d - 1 := by omega
      have h4 : 2 * (d - 1) ≤ (d - 1) * (d - 1) := Nat.mul_le_mul_right _ he2
      have h5 : (d - 1) * (d - 1) ≤ d := le_trans h2 hksq
      have h6 : 2 * (d - 1) ≤ d := le_trans h4 h5
      omega

end Condenser

namespace TNVerify

variable {α : Type}

theorem length_filter_map_const {β γ : Type} [BEq γ] (l : List β) (w : γ) (p : γ → Bool)
    (hp : p w = true) : ((l.map (fun _ => w)).filter p).length = l.length := by
  induction l with
  | nil => rfl
  | cons x xs ih => simp [List.filter_cons, hp, ih]

theorem length_filter_map_const_zero {β γ : Type} [BEq γ] (l : List β) (w : γ) (p : γ → Bool)
    (hp : p w = false) : ((l.map (fun _ => w)).filter p).length = 0 := by
  induction l with
  | nil => rfl
  | cons x xs ih => simp [List.filter_cons, hp, ih]

/-- C2: reshape round-trips exactly.  For every tensor `A` and composite
grouping `G` of its legs (same elementary charge structure), reshaping to `G`
and then back to `A.sparse_shape` returns a tensor identical to `A` (hence
element-wise identical). -/
theorem reshape_roundtrip (A : BlockSparseTensor α) (G : List Index)
    (hG : elemsList G = elemsList A.indices) :
    (A.reshape (.sparse G)).bind
      (fun B => B.reshape (.sparse A.sparseShape)) = .ok A := by
  have h1 : A.reshape (.sparse G) = .ok ⟨G, A.data, A.charge⟩ := by
    show A.reshapeSparse G = _
    unfold BlockSparseTensor.reshapeSparse
    rw [if_pos hG]
  rw [h1]
  show (⟨G, A.data, A.charge⟩ : BlockSparseTensor α).reshape (.sparse A.sparseShape) = .ok A
  rw [sparseShape_eq]
  show BlockSparseTensor.reshapeSparse ⟨G, A.data, A.charge⟩ A.indices = .ok A
  unfold BlockSparseTensor.reshapeSparse
  rw [if_pos hG.symm]

theorem reshape_roundtrip_witness :
    elemsList G1 = elemsList A1.indices ∧
      (A1.reshape (.sparse G1)).bind
        (fun B => B.reshape (.sparse A1.sparseShape)) = .ok A1 :=
  ⟨by decide, reshape_roundtrip A1 G1 (by decide)⟩

/-- C3: the free function `BT.reshape` copies its input and reshapes the
copy: it returns the same result as the in-place method applied to `A`, it
leaves `A` unmodified (second component of `reshapeFree` is the state of `A`
after the call), and on success the in-place method ends in exactly the
returned tensor. -/
theorem free_reshape_agrees_with_inplace (A : BlockSparseTensor α) (arg : ReshapeArg) :
    (reshapeFree A arg).1 = A.reshape arg ∧ (reshapeFree A arg).2 = A ∧
      ∀ B, A.reshape arg = .ok B → reshapeInPlace A arg = (B, none) := by
  refine ⟨?_, rfl, ?_⟩
  · show (tensorCopy A).reshape arg = A.reshape arg
    rw [tensorCopy_eq]
  · intro B h
    unfold reshapeInPlace
    rw [h]

theorem free_reshape_agrees_with_inplace_witness :
    (reshapeFree A1 (ReshapeArg.dense [6])).1 = A1.reshape (ReshapeArg.dense [6]) ∧
      reshapeInPlace A1 (ReshapeArg.dense [6]) = (⟨G1, [1, 2], 0⟩, none) :=
  ⟨(free_reshape_agrees_with_inplace A1 (ReshapeArg.dense [6])).1,
    (free_reshape_agrees_with_inplace A1 (ReshapeArg.dense [6])).2.2
      ⟨G1, [1, 2], 0⟩ (by decide)⟩

/-- C4: charge conservation is an invariant.  For every tensor produced by
`randn` and any finite sequence of reshapes that succeeds, the resulting
tensor's total charge is still `randn`'s fixed total charge `0`, and every
stored element's flow-weighted charge sum across all legs equals that total
charge. -/
theorem randn_reshape_charge_invariant (inds : List Index) (rand : Nat → α)
    (ops : List ReshapeArg) (B : BlockSparseTensor α)
    (h : applyReshapes (BlockSparseTensor.randn inds rand) ops = .ok B) :
    B.charge = 0 ∧
      ∀ p ∈ storedPositions B.indices B.charge, chargeSum B.indices p = B.charge := by
  refine ⟨applyReshapes_charge ops _ B h, ?_⟩
  intro p hp
  exact eq_of_beq (List.mem_filter.mp hp).2

theorem randn_reshape_charge_invariant_witness :
    applyReshapes A1 [ReshapeArg.sparse G1] = .ok ⟨G1, [1, 2], 0⟩ ∧
      ((⟨G1, [1, 2], 0⟩ : BlockSparseTensor Int).charge = 0 ∧
        ∀ p ∈ storedPositions G1 (0 : Int), chargeSum G1 p = 0) :=
  ⟨by decide,
    randn_reshape_charge_invariant [e1, e2] (fun n => (n : Int) + 1)
      [ReshapeArg.sparse G1] ⟨G1, [1, 2], 0⟩ (by decide)⟩

/-- C5: `randn` postcondition on the dense shape: the tensor returned by
`randn(indices, ...)` has shape equal to the per-leg charge-sequence
lengths. -/
theorem randn_shape_spec (inds : List Index) (rand : Nat → α) :
    (BlockSparseTensor.randn inds rand).shape = inds.map (fun ix => ix.charges.length) := by
  show denseDims inds = inds.map (fun ix => ix.charges.length)
  unfold denseDims
  simp [Index.charges_length]

/-- C6: `sparse_shape` is an independent deep copy: its value equals the
tensor's `indices`, and overwriting an entry of the returned copy leaves the
tensor — in particular its `indices` — unchanged (second component of
`setSparseShapeEntry` is the state of `A` after the mutation). -/
theorem sparse_shape_deep_copy (A : BlockSparseTensor α) (i : Nat) (J : Index) :
    A.sparseShape = A.indices ∧ (setSparseShapeEntry A i J).2 = A :=
  ⟨sparseShape_eq A, rfl⟩

/-- C7 is refuted as stated: reshaping the 2x3 tensor `A1` to dense shape
`[3, 2]` requests the same total element count (6 = 6), yet it fails with a
`ShapeError`, because no consecutive regrouping of the elementary legs
realises `[3, 2]`. -/
theorem reshape_error_cex :
    listProd [3, 2] = listProd A1.shape ∧
      A1.reshapeDense [3, 2] = .error .shapeError := by
  constructor
  · decide
  · rfl

/-- C7 (amended): reshape fails with `ShapeError` whenever the product of the
requested dense dims differs from the tensor's total element count; a dense
request succeeds exactly when some consecutive regrouping of the elementary
legs realises the requested dims (this can fail even with matching products),
and a composite request succeeds exactly when its elementary charge structure
matches the tensor's. -/
theorem reshape_error_characterization (A : BlockSparseTensor α) (ds : List Nat)
    (sh : List Index) :
    (listProd ds ≠ listProd A.shape → A.reshapeDense ds = .error .shapeError) ∧
    ((∃ B, A.reshapeDense ds = .ok B) ↔ realisable (elemsList A.indices) ds) ∧
    ((∃ B, A.reshapeSparse sh = .ok B) ↔ elemsList sh = elemsList A.indices) := by
  refine ⟨?_, ⟨?_, ?_⟩, ⟨?_, ?_⟩⟩
  · intro hne
    unfold BlockSparseTensor.reshapeDense
    cases hg : groupElems (elemsList A.indices) ds with
    | none => rfl
    | some gs =>
      exfalso
      exact hne ((groupElems_prod hg).trans (elemsList_prod A.indices))
  · rintro ⟨B, hB⟩
    have h' : (match groupElems (elemsList A.indices) ds with
        | some newInds => Except.ok { A with indices := newInds }
        | none => Except.error ShapeError.shapeError) = Except.ok B := hB
    cases hg : groupElems (elemsList A.indices) ds with
    | none => rw [hg] at h'; cases h'
    | some gs => exact (groupElems_some_iff (elemsList A.indices) ds).mp ⟨gs, hg⟩
  · intro hs
    obtain ⟨gs, hg⟩ := (groupElems_some_iff (elemsList A.indices) ds).mpr hs
    refine ⟨{ A with indices := gs }, ?_⟩
    show (match groupElems (elemsList A.indices) ds with
      | some newInds => Except.ok { A with indices := newInds }
      | none => Except.error ShapeError.shapeError) = _
    rw [hg]
  · rintro ⟨B, hB⟩
    have h' : (if elemsList sh = elemsList A.indices then
        Except.ok { A with indices := sh }
        else Except.error ShapeError.shapeError) = Except.ok B := hB
    by_cases hc : elemsList sh = elemsList A.indices
    · exact hc
    · rw [if_neg hc] at h'
      cases h'
  · intro hc
    refine ⟨{ A with indices := sh }, ?_⟩
    unfold BlockSparseTensor.reshapeSparse
    rw [if_pos hc]

theorem reshape_error_characterization_witness :
    listProd [5] ≠ listProd A1.shape ∧ A1.reshapeDense [5] = .error .shapeError :=
  ⟨by decide, (reshape_error_characterization A1 [5] []).1 (by decide)⟩

/-- C8: reshape is atomic on failure: when the in-place reshape reports an
error, the tensor's state after the call is exactly its prior state. -/
theorem reshape_atomic_on_failure (A : BlockSparseTensor α) (arg : ReshapeArg)
    (e : ShapeError) (h : (reshapeInPlace A arg).2 = some e) :
    (reshapeInPlace A arg).1 = A := by
  unfold reshapeInPlace at h ⊢
  cases hr : A.reshape arg with
  | ok B =>
    rw [hr] at h
    simp at h
  | error e2 => rfl

theorem reshape_atomic_on_failure_witness :
    (reshapeInPlace A1 (ReshapeArg.sparse [e1])).2 = some ShapeError.shapeError ∧
      (reshapeInPlace A1 (ReshapeArg.sparse [e1])).1 = A1 :=
  ⟨by decide,
    reshape_atomic_on_failure A1 (ReshapeArg.sparse [e1]) ShapeError.shapeError (by decide)⟩

/-- C9: a successful in-place reshape (in particular any pure regrouping that
merges consecutive legs) leaves the stored numerical data buffer unchanged;
only the `Index` metadata is recomputed. -/
theorem reshape_keeps_data_buffer (A : BlockSparseTensor α) (arg : ReshapeArg)
    (B : BlockSparseTensor α) (h : reshapeInPlace A arg = (B, none)) :
    B.data = A.data := by
  unfold reshapeInPlace at h
  cases hr : A.reshape arg with
  | ok C =>
    rw [hr] at h
    have hB : C = B := congrArg Prod.fst h
    subst hB
    exact (reshape_ok_fields hr).1
  | error e =>
    rw [hr] at h
    have hcontra := congrArg Prod.snd h
    simp at hcontra

theorem reshape_keeps_data_buffer_witness :
    reshapeInPlace A1 (ReshapeArg.sparse G1) = (⟨G1, [1, 2], 0⟩, none) ∧
      (⟨G1, [1, 2], 0⟩ : BlockSparseTensor Int).data = A1.data :=
  ⟨by decide,
    reshape_keeps_data_buffer A1 (ReshapeArg.sparse G1) ⟨G1, [1, 2], 0⟩ (by decide)⟩

end TNVerify

namespace Condenser

/-- C1 is refuted as stated: for a 2D input with last dimension 4 and
`num_nodes = 1`, `compute_output_shape` reports last dimension
`round(4 ** (1/2)) = 2`, which is not strictly larger than 4, and `call`
produces an output of the same last dimension 2. -/
theorem condenser_expansion_cex :
    (computeOutputShape 1 4 1).2 = 2 ∧ ¬ (4 < (computeOutputShape 1 4 1).2) ∧
      callShape 1 4 1 = some (1, 2) := by
  decide

/-- C1 (amended): the layer condenses rather than expands.  For every
`num_nodes ≥ 1` and every input last dimension `d ≥ 2`, the last dimension
reported by `compute_output_shape` — and produced by `call` whenever the
input reshape is defined — is `round(d ** (1/(num_nodes+1)))`, which is
strictly smaller than `d`. -/
theorem condenser_condenses (batch d n : Nat) (hn : 1 ≤ n) (hd : 2 ≤ d) :
    (computeOutputShape batch d n).2 < d ∧
      ∀ p : Nat × Nat, callShape batch d n = some p → p.2 < d := by
  have h : legDim d (n + 1) < d := legDim_lt_self hd (by omega)
  constructor
  · exact h
  · intro p hp
    unfold callShape at hp
    split at hp
    · cases hp
      exact h
    · cases hp

theorem condenser_condenses_witness :
    1 ≤ 1 ∧ 2 ≤ 4 ∧ (computeOutputShape 3 4 1).2 < 4 :=
  ⟨by decide, by decide, (condenser_condenses 3 4 1 (by decide) (by decide)).1⟩

/-- C10: `build` raises `ValueError` (creating no weights) exactly when the
last dimension of `input_shape` is `None`; when it is a defined integer,
`build` succeeds and creates exactly `num_nodes` kernel weights, plus one
bias weight if and only if `use_bias` is true. -/
theorem build_weight_creation (numNodes : Nat) (useBias : Bool)
    (inputShape : List (Option Nat)) :
    (inputShape.getLast? = some none →
      build numNodes useBias inputShape = .error .valueError) ∧
    (∀ d, inputShape.getLast? = some (some d) →
      ∃ ws, build numNodes useBias inputShape = .ok ws ∧
        (ws.filter (fun w => w.kind == WeightKind.kernel)).length = numNodes ∧
        (ws.filter (fun w => w.kind == WeightKind.bias)).length =
          (if useBias then 1 else 0)) := by
  constructor
  · intro h
    unfold build
    rw [h]
  · intro d h
    unfold build
    rw [h]
    refine ⟨_, rfl, ?_, ?_⟩
    · rw [List.filter_append]
      rw [List.length_append]
      rw [TNVerify.length_filter_map_const (List.range numNodes) _ _ (by rfl)]
      cases useBias with
      | true => simp [List.filter_cons]
      | false => simp
    · rw [List.filter_append]
      rw [List.length_append]
      rw [TNVerify.length_filter_map_const_zero (List.range numNodes) _ _ (by rfl)]
      cases useBias with
      | true => simp [List.filter_cons]
      | false => simp

theorem build_weight_creation_witness :
    build 2 true [some 3, none] = .error .valueError ∧
      ∃ ws, build 2 true [some 3, some 64] = .ok ws ∧
        (ws.filter (fun w => w.kind == WeightKind.kernel)).length = 2 ∧
        (ws.filter (fun w => w.kind == WeightKind.bias)).length =
          (if true then 1 else 0) :=
  ⟨(build_weight_creation 2 true [some 3, none]).1 (by decide),
    (build_weight_creation 2 true [some 3, some 64]).2 64 (by decide)⟩

end Condenser
